import Mathlib

/-!
Verification development for the `duplicates` program: a duplicate-file
finder built on a fixed-capacity separate-chaining hash table.

The C sources are embedded shallowly:

* `hash.c`    : `hash_from_data` (FNV-1 over bytes, 64-bit wrap-around);
                `hash_from_file` (MD5 of a file) is modelled abstractly as a
                field of the `FS` (filesystem) record, since its result is an
                opaque hex digest as far as the rest of the program goes.
* `pair.c`    : `Pair` records; `pair_update` / `pair_create` are inlined into
                the chain operations; `pair_format` renders one entry.
* `table.c`   : `Table` with `capacity`, `buckets` (a list of chains, one per
                bucket, each chain being the list hanging off the sentinel
                head in the C code) and `size`; `table_create`, `table_insert`,
                `table_search`, `table_remove`, `table_format`.
* `duplicates.c` : `check_file` and `check_directory`, parameterised by an
                abstract filesystem `FS`; directory recursion is bounded by an
                explicit fuel argument (the C recursion has no bound).

C strings are modelled as `List Nat` (the byte values of the string, NUL
terminator omitted); `strcmp`-equality is list equality, `strlen` is
`List.length`.  The tagged union `Value`/`Type` pair of the C code is
modelled as a single sum type carrying the tag.  Machine integers are `Nat`
with explicit `% 2 ^ 64` where the C computation wraps.
-/

/-- `FNV_OFFSET_BASIS` from `hash.c`. -/
def FNV_OFFSET_BASIS : Nat := 0xcbf29ce484222325

/-- `FNV_PRIME` from `hash.c`. -/
def FNV_PRIME : Nat := 0x100000001b3

/-- 2^64, the modulus of `uint64_t` arithmetic. -/
def two64 : Nat := 2 ^ 64

/-- The value of `(uint64_t)(int)b` for a byte `b` read through a signed
`char`, as in `hash ^ byte` in `hash.c` (bytes ≥ 128 are sign-extended). -/
def signExtendByte (b : Nat) : Nat := if b < 128 then b else two64 - 256 + b

/-- `hash_from_data` from `hash.c`: FNV-1 hash of a byte sequence, with
64-bit wrap-around multiplication. -/
def hash_from_data (data : List Nat) : Nat :=
  data.foldl (fun h b => ((h ^^^ signExtendByte b) * FNV_PRIME) % two64) FNV_OFFSET_BASIS

/-- The `Value` union together with its `Type` tag from `pair.h`/`table.h`
usage: `STRING` carries a C string, `NUMBER` an `int64_t`. -/
inductive Value where
  | string (s : List Nat)
  | number (n : Int)
deriving DecidableEq

/-- A `Pair` node from `pair.c`: key plus tagged value.  The `next` pointer
is represented by the position of the node in its chain list. -/
structure Pair where
  key : List Nat
  value : Value
deriving DecidableEq

/-- The `Table` from `table.c`: bucket array (each bucket the chain hanging
off its sentinel head) plus `capacity` and `size`. -/
structure Table where
  capacity : Nat
  buckets : List (List Pair)
  size : Nat
deriving DecidableEq

/-- Modelled from the spec: the header `table.h` defining `DEFAULT_CAPACITY`
is not among the sources; the spec says only that requesting capacity 0
falls back to an implementation-defined positive default constant.  The
concrete number is irrelevant to every theorem below except for being
positive. -/
def DEFAULT_CAPACITY : Nat := 1024

/-- `table_create` from `table.c`: capacity 0 falls back to
`DEFAULT_CAPACITY`; all buckets start empty and `size = 0`. -/
def table_create (capacity : Nat) : Table :=
  let cap := if capacity = 0 then DEFAULT_CAPACITY else capacity
  { capacity := cap, buckets := List.replicate cap [], size := 0 }

/-- The loop condition of `table_insert`: does the chain contain the key
(`strcmp(curr->key, key) == 0` for some node)? -/
def chainHasKey (key : List Nat) : List Pair → Bool
  | [] => false
  | p :: rest => if p.key = key then true else chainHasKey key rest

/-- The update path of `table_insert`: `pair_update` on the first node whose
key matches, leaving the rest of the chain untouched. -/
def chainUpdate (key : List Nat) (v : Value) : List Pair → List Pair
  | [] => []
  | p :: rest =>
    if p.key = key then { p with value := v } :: rest
    else p :: chainUpdate key v rest

/-- The loop of `table_search`: first value whose key matches. -/
def chainSearch (key : List Nat) : List Pair → Option Value
  | [] => none
  | p :: rest => if p.key = key then some p.value else chainSearch key rest

/-- The loop of `table_remove`: unlink the first node whose key matches
(`prev->next = curr->next`), or report that no node matched. -/
def chainRemove (key : List Nat) : List Pair → Option (List Pair)
  | [] => none
  | p :: rest =>
    if p.key = key then some rest
    else (chainRemove key rest).map (fun c => p :: c)

/-- `hash_from_data(key, strlen(key)) % t->capacity`, the bucket index used
by `table_insert`, `table_search` and `table_remove`. -/
def bucket_index (t : Table) (key : List Nat) : Nat :=
  hash_from_data key % t.capacity

/-- `table_insert` from `table.c`: scan the bucket's chain; on a key match,
`pair_update` in place (size unchanged); otherwise `pair_create` a new node
at the chain head and increment `size`. -/
def table_insert (t : Table) (key : List Nat) (v : Value) : Table :=
  let b := bucket_index t key
  let chain := t.buckets.getD b []
  if chainHasKey key chain then
    { t with buckets := t.buckets.set b (chainUpdate key v chain) }
  else
    { t with buckets := t.buckets.set b ({ key := key, value := v } :: chain),
             size := t.size + 1 }

/-- `table_search` from `table.c`: scan the bucket's chain, return the first
matching value (the C code returns a pointer to it, `NULL` when absent). -/
def table_search (t : Table) (key : List Nat) : Option Value :=
  chainSearch key (t.buckets.getD (bucket_index t key) [])

/-- `table_remove` from `table.c`: unlink and free the first matching node,
decrement `size` and return `true`; return `false` with the table untouched
when the key is absent. -/
def table_remove (t : Table) (key : List Nat) : Bool × Table :=
  let b := bucket_index t key
  match chainRemove key (t.buckets.getD b []) with
  | some c => (true, { t with buckets := t.buckets.set b c, size := t.size - 1 })
  | none => (false, t)

/-- Decimal rendering of a nonnegative integer, as `printf("%ld", ...)`
produces for it (ASCII digit bytes). -/
def nat_decimal (n : Nat) : List Nat := (Nat.toDigits 10 n).map Char.toNat

/-- Decimal rendering of an `int64_t` by `printf("%ld", ...)`: optional
leading minus sign followed by the digits. -/
def int_decimal : Int → List Nat
  | Int.ofNat n => nat_decimal n
  | Int.negSucc n => 45 :: nat_decimal (n + 1)

/-- `pair_format` from `pair.c`: `"%s\t%s\n"` for `STRING` values and
`"%s\t%ld\n"` for `NUMBER` values (9 = tab, 10 = newline). -/
def pair_format (p : Pair) : List Nat :=
  match p.value with
  | Value.string s => p.key ++ [9] ++ s ++ [10]
  | Value.number n => p.key ++ [9] ++ int_decimal n ++ [10]

/-- `table_format` from `table.c`: buckets in index order, each chain from
its head, one `pair_format` block per node, all written to the stream. -/
def table_format (t : Table) : List Nat :=
  (t.buckets.map (fun c => (c.map pair_format).flatten)).flatten

/-- How `pair_format` renders a value: `Text` as-is, `Number` in decimal. -/
def value_render : Value → List Nat
  | Value.string s => s
  | Value.number n => int_decimal n

/-- Total number of entries reachable across all chains. -/
def numEntries (t : Table) : Nat := (t.buckets.map List.length).sum

/-- All keys stored in the table, bucket by bucket, chain order within each
bucket. -/
def allKeys (t : Table) : List (List Nat) :=
  (t.buckets.map (fun c => c.map Pair.key)).flatten

/-- Structural well-formedness of a table: positive capacity and one chain
per bucket.  Every table returned by `table_create` satisfies this and every
table operation preserves it. -/
def Wf (t : Table) : Prop :=
  0 < t.capacity ∧ t.buckets.length = t.capacity

instance (t : Table) : Decidable (Wf t) := by unfold Wf; infer_instance

/-- The full table invariant: well-formedness, `size` agreeing with the
number of reachable entries, per-chain key uniqueness, and every node
sitting in the bucket selected by `hash_from_data` of its key. -/
structure TableInv (t : Table) : Prop where
  cap_pos : 0 < t.capacity
  len_eq : t.buckets.length = t.capacity
  size_eq : t.size = numEntries t
  chains_nodup : ∀ c ∈ t.buckets, (c.map Pair.key).Nodup
  placed : ∀ i, (hi : i < t.buckets.length) → ∀ p ∈ t.buckets[i],
    hash_from_data p.key % t.capacity = i

/-- A mutating/observing table operation, for stating reachability over
operation sequences. -/
inductive Op where
  | ins (k : List Nat) (v : Value)
  | rem (k : List Nat)
  | find (k : List Nat)

/-- The state change performed by one operation (`find`, i.e.
`table_search`, never mutates). -/
def applyOp (t : Table) : Op → Table
  | Op.ins k v => table_insert t k v
  | Op.rem k => (table_remove t k).2
  | Op.find _ => t

/-- Run a sequence of operations from a starting table. -/
def runOps (t : Table) (ops : List Op) : Table := ops.foldl applyOp t

/-- The value an operation returns to its caller. -/
inductive Obs where
  | inserted
  | removed (b : Bool)
  | found (v : Option Value)
deriving DecidableEq

/-- One step: the returned value together with the successor state. -/
def stepObs (t : Table) : Op → Obs × Table
  | Op.ins k v => (Obs.inserted, table_insert t k v)
  | Op.rem k => ((Obs.removed (table_remove t k).1), (table_remove t k).2)
  | Op.find k => (Obs.found (table_search t k), t)

/-- Observable behavior of a table under a sequence of operations: the
returned value and the table's `size` after every step. -/
def runObs : Table → List Op → List (Obs × Nat)
  | _, [] => []
  | t, op :: ops =>
    let s := stepObs t op
    (s.1, s.2.size) :: runObs s.2 ops

/-- The `Options` record of `duplicates.c` (`-c` and `-q` flags). -/
structure Options where
  count : Bool
  quiet : Bool

/-- Reading `v->string` out of a found `Value`, as the duplicate-report
`printf` does.  The scanner only ever stores `STRING` values; reading the
union member of a `NUMBER` value would be meaningless in C, so the model
returns the empty string there. -/
def value_string : Value → List Nat
  | Value.string s => s
  | Value.number _ => []

/-- The bytes of the literal text of
`printf("%s is a duplicate of %s\n", path, v->string)` between the two
conversions. -/
def dup_sep : List Nat :=
  [32, 105, 115, 32, 97, 32, 100, 117, 112, 108, 105, 99, 97, 116, 101, 32, 111, 102, 32]

/-- One duplicate-report line as printed by `check_file`. -/
def dup_line (path orig : List Nat) : List Nat := path ++ dup_sep ++ orig ++ [10]

/-- `check_file` from `duplicates.c`, parameterised by the digest
computation (`hash_from_file`, abstract: `none` models a failed open).
Returns the duplicate count contributed by this file, the successor table,
and the list of lines printed to standard output. -/
def check_file (hashFile : List Nat → Option (List Nat)) (o : Options)
    (path : List Nat) (t : Table) : Nat × Table × List (List Nat) :=
  match hashFile path with
  | some hex =>
    match table_search t hex with
    | some v =>
      if !o.count && !o.quiet then (1, t, [dup_line path (value_string v)])
      else (1, t, [])
    | none => (0, table_insert t hex (Value.string path), [])
  | none => (0, t, [])

/-- The three per-file outcomes named by the spec. -/
inductive Classification where
  | Duplicate (of : List Nat)
  | Original
  | Unreadable
deriving DecidableEq

/-- The classification implicit in `check_file`'s branch structure
(`classify_file` of the spec): a failed digest is `Unreadable` with no
table change, a found digest is `Duplicate` of the stored path with no
table change, an absent digest is `Original` and inserts the digest with
this file's path. -/
def classify_file (hashFile : List Nat → Option (List Nat))
    (path : List Nat) (t : Table) : Classification × Table :=
  match hashFile path with
  | none => (Classification.Unreadable, t)
  | some hex =>
    match table_search t hex with
    | some v => (Classification.Duplicate (value_string v), t)
    | none => (Classification.Original, table_insert t hex (Value.string path))

/-- The duplicate-report output `check_file` produces when neither `-c` nor
`-q` is set: exactly one line when the file's digest is already in the
table, nothing otherwise. -/
def dup_report (hashFile : List Nat → Option (List Nat))
    (path : List Nat) (t : Table) : List (List Nat) :=
  match hashFile path with
  | some hex =>
    match table_search t hex with
    | some v => [dup_line path (value_string v)]
    | none => []
  | none => []

/-- An abstract filesystem, giving the results of the system interactions
of `check_directory`: `readdir` enumeration (`none` models a failed
`opendir`), `stat`-based `is_directory`, `realpath`, and `hash_from_file`
(`none` models a failed `fopen`). -/
structure FS where
  readdir : List Nat → Option (List (List Nat))
  isDir : List Nat → Bool
  realpath : List Nat → List Nat
  hashFile : List Nat → Option (List Nat)

/-- The child-path composition of `check_directory`: `sprintf(currPath,
"%s/%s", root, curr->d_name)`, overwritten with `sprintf(currPath, "%s/%s",
path, curr->d_name)` (where `path = realpath(root)`) whenever the *bare*
entry name passes `is_directory` — i.e. whenever the current working
directory happens to contain a directory of that name (47 = the slash). -/
def composePath (fs : FS) (root name : List Nat) : List Nat :=
  if fs.isDir name then fs.realpath root ++ [47] ++ name
  else root ++ [47] ++ name

/-- The entry loop of `check_directory`: skip `.` and `..`
([46] and [46, 46]); compose the child path; recurse (via `recurse`, the
fuel-limited `check_directory` below) when the composed path is a
directory, otherwise `check_file` it; accumulate counts and output in
traversal order. -/
def check_entries (fs : FS) (o : Options)
    (recurse : List Nat → Table → Nat × Table × List (List Nat))
    (root : List Nat) : List (List Nat) → Table → Nat × Table × List (List Nat)
  | [], t => (0, t, [])
  | name :: rest, t =>
    if name = [46] ∨ name = [46, 46] then check_entries fs o recurse root rest t
    else
      let currPath := composePath fs root name
      let r1 := if fs.isDir currPath then recurse currPath t
                else check_file fs.hashFile o currPath t
      let r2 := check_entries fs o recurse root rest r1.2.1
      (r1.1 + r2.1, r2.2.1, r1.2.2 ++ r2.2.2)

/-- `check_directory` from `duplicates.c`: a failed `opendir` prints to
standard error and contributes 0; otherwise fold `check_entries` over the
enumeration.  The C recursion has no depth bound; the model bounds it with
fuel (every terminating C run is reproduced by a large enough fuel). -/
def check_directory (fs : FS) (o : Options) :
    Nat → List Nat → Table → Nat × Table × List (List Nat)
  | 0, _, t => (0, t, [])
  | fuel + 1, root, t =>
    match fs.readdir root with
    | none => (0, t, [])
    | some entries => check_entries fs o (check_directory fs o fuel) root entries t

/-- Scan root for the path-composition scenario: the relative path `r`. -/
def c1Root : List Nat := [114]

/-- The one entry of `c1Root`: a plain file named `e`. -/
def c1Name : List Nat := [101]

/-- `realpath(c1Root)`: the absolute path `/q/r` of the scan root. -/
def c1RealRoot : List Nat := [47, 113, 47, 114]

/-- The child path the code actually composes when the bare name `e` is a
directory relative to the working directory: `/q/r/e`. -/
def c1ChildByRealpath : List Nat := c1RealRoot ++ [47] ++ c1Name

/-- The child path obtained by joining the parent path and the entry name,
as the claim states: `r/e`. -/
def c1ChildByJoin : List Nat := c1Root ++ [47] ++ c1Name

/-- The digest of the file `e`'s content. -/
def c1Digest : List Nat := [100]

/-- A concrete consistent filesystem exhibiting the path-composition
defect: the scan root `r` (absolute path `/q/r`) contains a single plain
file `e`, while the working directory also contains a *directory* named
`e`, so the bare-name `is_directory` test succeeds.  Both spellings of the
child path name the same plain file with digest `c1Digest`. -/
def c1FS : FS where
  readdir := fun p => if p = c1Root then some [c1Name] else none
  isDir := fun p => decide (p = c1Name)
  realpath := fun p => if p = c1Root then c1RealRoot else p
  hashFile := fun p =>
    if p = c1ChildByRealpath ∨ p = c1ChildByJoin then some c1Digest else none


/-! ### Helper lemmas about `List.set` and `getD` -/

theorem getD_set_self {α : Type} (l : List α) (i : Nat) (x d : α)
    (h : i < l.length) : (l.set i x).getD i d = x := by
  induction l generalizing i with
  | nil => simp at h
  | cons a l ih =>
    cases i with
    | zero => rfl
    | succ j => simpa using ih j (by simpa using h)

theorem getD_set_ne {α : Type} (l : List α) (i j : Nat) (x d : α)
    (h : i ≠ j) : (l.set i x).getD j d = l.getD j d := by
  induction l generalizing i j with
  | nil => simp
  | cons a l ih =>
    cases i with
    | zero =>
      cases j with
      | zero => exact absurd rfl h
      | succ j' => rfl
    | succ i' =>
      cases j with
      | zero => rfl
      | succ j' => simpa using ih i' j' (by omega)

theorem sum_map_len_set (l : List (List Pair)) (i : Nat) (x : List Pair)
    (h : i < l.length) :
    ((l.set i x).map List.length).sum + (l.getD i []).length
      = (l.map List.length).sum + x.length := by
  induction l generalizing i with
  | nil => simp at h
  | cons a l ih =>
    cases i with
    | zero => simp [List.getD]; omega
    | succ j =>
      have := ih j (by simpa using h)
      simp only [List.set_cons_succ, List.map_cons, List.sum_cons,
        List.getD_cons_succ]
      omega

/-! ### Helper lemmas about the chain operations -/

theorem chainHasKey_eq_false (key : List Nat) (c : List Pair)
    (h : chainHasKey key c = false) :
    chainSearch key c = none ∧ chainRemove key c = none := by
  induction c with
  | nil => exact ⟨rfl, rfl⟩
  | cons p rest ih =>
    by_cases hk : p.key = key
    · simp [chainHasKey, hk] at h
    · simp only [chainHasKey, if_neg hk] at h
      obtain ⟨h1, h2⟩ := ih h
      simp [chainSearch, chainRemove, hk, h1, h2]

theorem chainHasKey_iff_mem_keys (key : List Nat) (c : List Pair) :
    chainHasKey key c = true ↔ key ∈ c.map Pair.key := by
  induction c with
  | nil => simp [chainHasKey]
  | cons p rest ih =>
    simp only [chainHasKey, List.map_cons, List.mem_cons]
    by_cases hk : p.key = key
    · simp [hk]
    · simp only [if_neg hk, ih]
      constructor
      · exact fun h => Or.inr h
      · rintro (h | h)
        · exact absurd h.symm hk
        · exact h

theorem map_key_chainUpdate (key : List Nat) (v : Value) (c : List Pair) :
    (chainUpdate key v c).map Pair.key = c.map Pair.key := by
  induction c with
  | nil => rfl
  | cons p rest ih =>
    by_cases hk : p.key = key
    · simp [chainUpdate, hk]
    · simp [chainUpdate, hk, ih]

theorem chainSearch_chainUpdate_self (key : List Nat) (v : Value) (c : List Pair)
    (h : chainHasKey key c = true) :
    chainSearch key (chainUpdate key v c) = some v := by
  induction c with
  | nil => simp [chainHasKey] at h
  | cons p rest ih =>
    by_cases hk : p.key = key
    · simp [chainUpdate, chainSearch, hk]
    · simp only [chainHasKey, if_neg hk] at h
      simp [chainUpdate, chainSearch, hk, ih h]

theorem chainSearch_chainUpdate_ne (key k : List Nat) (v : Value) (c : List Pair)
    (h : k ≠ key) :
    chainSearch k (chainUpdate key v c) = chainSearch k c := by
  induction c with
  | nil => rfl
  | cons p rest ih =>
    obtain ⟨pk, pv⟩ := p
    by_cases hk : pk = key
    · subst hk
      have hne : ¬ pk = k := fun hc => h hc.symm
      simp [chainUpdate, chainSearch, hne]
    · by_cases hk2 : pk = k
      · subst hk2
        simp [chainUpdate, chainSearch, hk]
      · simp [chainUpdate, chainSearch, hk, hk2, ih]

theorem chainHasKey_chainUpdate (key k : List Nat) (v : Value) (c : List Pair) :
    chainHasKey k (chainUpdate key v c) = chainHasKey k c := by
  rw [Bool.eq_iff_iff, chainHasKey_iff_mem_keys, chainHasKey_iff_mem_keys,
    map_key_chainUpdate]

theorem chainUpdate_split (key : List Nat) (v : Value) (c : List Pair)
    (h : chainHasKey key c = true) :
    ∃ c1 p c2, c = c1 ++ p :: c2 ∧ p.key = key ∧ chainHasKey key c1 = false ∧
      chainUpdate key v c = c1 ++ { key := key, value := v } :: c2 := by
  induction c with
  | nil => simp [chainHasKey] at h
  | cons p rest ih =>
    obtain ⟨pk, pv⟩ := p
    by_cases hk : pk = key
    · subst hk
      exact ⟨[], ⟨pk, pv⟩, rest, by simp, rfl, rfl, by simp [chainUpdate]⟩
    · simp only [chainHasKey, if_neg hk] at h
      obtain ⟨c1, q, c2, hc, hq, hc1, hu⟩ := ih h
      refine ⟨⟨pk, pv⟩ :: c1, q, c2, by simp [hc], hq, ?_, ?_⟩
      · simp [chainHasKey, hk, hc1]
      · simp [chainUpdate, hk, hu]

theorem chainRemove_sublist (key : List Nat) (c c' : List Pair)
    (h : chainRemove key c = some c') : c'.Sublist c := by
  induction c generalizing c' with
  | nil => simp [chainRemove] at h
  | cons p rest ih =>
    by_cases hk : p.key = key
    · simp only [chainRemove, if_pos hk, Option.some.injEq] at h
      exact h ▸ List.sublist_cons_self p rest
    · simp only [chainRemove, if_neg hk, Option.map_eq_some'] at h
      obtain ⟨c2, hc2, rfl⟩ := h
      exact (ih c2 hc2).cons₂ p

theorem chainRemove_length (key : List Nat) (c c' : List Pair)
    (h : chainRemove key c = some c') : c'.length + 1 = c.length := by
  induction c generalizing c' with
  | nil => simp [chainRemove] at h
  | cons p rest ih =>
    by_cases hk : p.key = key
    · simp only [chainRemove, if_pos hk, Option.some.injEq] at h
      simp [← h]
    · simp only [chainRemove, if_neg hk, Option.map_eq_some'] at h
      obtain ⟨c2, hc2, rfl⟩ := h
      simpa using ih c2 hc2

/-! ### Preservation lemmas for the table operations -/

theorem capacity_table_insert (t : Table) (key : List Nat) (v : Value) :
    (table_insert t key v).capacity = t.capacity := by
  simp only [table_insert]
  split <;> rfl

theorem buckets_length_table_insert (t : Table) (key : List Nat) (v : Value) :
    (table_insert t key v).buckets.length = t.buckets.length := by
  simp only [table_insert]
  split <;> simp

theorem Wf_table_insert (t : Table) (key : List Nat) (v : Value) (h : Wf t) :
    Wf (table_insert t key v) := by
  obtain ⟨h1, h2⟩ := h
  exact ⟨capacity_table_insert t key v ▸ h1,
    by rw [buckets_length_table_insert, capacity_table_insert]; exact h2⟩

theorem bucket_index_lt (t : Table) (key : List Nat) (h : Wf t) :
    bucket_index t key < t.buckets.length := by
  rw [h.2]
  exact Nat.mod_lt _ h.1

theorem bucket_index_table_insert (t : Table) (key key' : List Nat) (v : Value) :
    bucket_index (table_insert t key' v) key = bucket_index t key := by
  unfold bucket_index
  rw [capacity_table_insert]

theorem table_search_insert_self (t : Table) (key : List Nat) (v : Value)
    (h : Wf t) : table_search (table_insert t key v) key = some v := by
  have hb := bucket_index_lt t key h
  unfold table_search
  rw [bucket_index_table_insert]
  unfold table_insert
  by_cases hc : chainHasKey key (t.buckets.getD (bucket_index t key) []) = true
  · simp only [if_pos hc]
    rw [getD_set_self _ _ _ _ hb]
    exact chainSearch_chainUpdate_self _ _ _ hc
  · simp only [if_neg hc]
    rw [getD_set_self _ _ _ _ hb]
    simp [chainSearch]

theorem table_search_insert_ne (t : Table) (key k : List Nat) (v : Value)
    (h : Wf t) (hne : k ≠ key) :
    table_search (table_insert t key v) k = table_search t k := by
  have hb := bucket_index_lt t key h
  unfold table_search
  rw [bucket_index_table_insert]
  unfold table_insert
  by_cases hsame : bucket_index t k = bucket_index t key
  · rw [hsame]
    by_cases hc : chainHasKey key (t.buckets.getD (bucket_index t key) []) = true
    · simp only [if_pos hc]
      rw [getD_set_self _ _ _ _ hb]
      exact chainSearch_chainUpdate_ne _ _ _ _ hne
    · simp only [if_neg hc]
      rw [getD_set_self _ _ _ _ hb]
      have hne' : ¬ key = k := fun hk => hne hk.symm
      simp [chainSearch, hne']
  · by_cases hc : chainHasKey key (t.buckets.getD (bucket_index t key) []) = true
    · simp only [if_pos hc]
      rw [getD_set_ne _ _ _ _ _ (fun he => hsame he.symm)]
    · simp only [if_neg hc]
      rw [getD_set_ne _ _ _ _ _ (fun he => hsame he.symm)]

theorem chainHasKey_insert_self (t : Table) (key : List Nat) (v : Value)
    (h : Wf t) :
    chainHasKey key ((table_insert t key v).buckets.getD (bucket_index t key) [])
      = true := by
  have hb := bucket_index_lt t key h
  unfold table_insert
  by_cases hc : chainHasKey key (t.buckets.getD (bucket_index t key) []) = true
  · simp only [if_pos hc]
    rw [getD_set_self _ _ _ _ hb, chainHasKey_chainUpdate]
    exact hc
  · simp only [if_neg hc]
    rw [getD_set_self _ _ _ _ hb]
    simp [chainHasKey]

theorem size_table_insert_update (t : Table) (key : List Nat) (v : Value)
    (hc : chainHasKey key (t.buckets.getD (bucket_index t key) []) = true) :
    (table_insert t key v).size = t.size := by
  unfold table_insert
  simp only [if_pos hc]

theorem getD_eq_getElem {α : Type} (l : List α) (i : Nat) (d : α)
    (h : i < l.length) : l.getD i d = l[i] := by
  rw [List.getD_eq_getElem?_getD, List.getElem?_eq_getElem h, Option.getD_some]

theorem capacity_table_remove (t : Table) (key : List Nat) :
    (table_remove t key).2.capacity = t.capacity := by
  simp only [table_remove]
  split <;> rfl

theorem capacity_applyOp (t : Table) (op : Op) :
    (applyOp t op).capacity = t.capacity := by
  cases op with
  | ins k v => exact capacity_table_insert t k v
  | rem k => exact capacity_table_remove t k
  | find k => rfl

theorem length_chainUpdate (key : List Nat) (v : Value) (c : List Pair) :
    (chainUpdate key v c).length = c.length := by
  have := congrArg List.length (map_key_chainUpdate key v c)
  simpa using this

theorem capacity_table_create (n : Nat) :
    (table_create n).capacity = if n = 0 then DEFAULT_CAPACITY else n := rfl

theorem inv_table_create (n : Nat) : TableInv (table_create n) := by
  refine ⟨?_, by simp [table_create], ?_, ?_, ?_⟩
  · rw [capacity_table_create]
    split
    · decide
    · omega
  · simp [table_create, numEntries, List.map_replicate]
  · intro c hc
    have hc0 : c = [] := List.eq_of_mem_replicate hc
    subst hc0
    simp
  · intro i hi p hp
    simp only [table_create, List.getElem_replicate] at hp
    simp at hp

theorem inv_table_insert (t : Table) (key : List Nat) (v : Value)
    (h : TableInv t) : TableInv (table_insert t key v) := by
  have hw : Wf t := ⟨h.cap_pos, h.len_eq⟩
  have hb : bucket_index t key < t.buckets.length := bucket_index_lt t key hw
  have hchain : t.buckets.getD (bucket_index t key) []
      = t.buckets[bucket_index t key] := getD_eq_getElem _ _ _ hb
  have hmem : t.buckets.getD (bucket_index t key) [] ∈ t.buckets := by
    rw [hchain]; exact List.getElem_mem hb
  by_cases hc : chainHasKey key (t.buckets.getD (bucket_index t key) []) = true
  · -- pair_update in place
    simp only [table_insert, if_pos hc]
    refine ⟨h.cap_pos, by simpa using h.len_eq, ?_, ?_, ?_⟩
    · have hsum := sum_map_len_set t.buckets (bucket_index t key)
        (chainUpdate key v (t.buckets.getD (bucket_index t key) [])) hb
      have hlen := length_chainUpdate key v (t.buckets.getD (bucket_index t key) [])
      have := h.size_eq
      simp only [numEntries] at *
      omega
    · intro c hcm
      rcases List.mem_or_eq_of_mem_set hcm with hold | rfl
      · exact h.chains_nodup c hold
      · rw [map_key_chainUpdate]
        exact h.chains_nodup _ hmem
    · intro i hi p hp
      simp only [List.length_set] at hi
      by_cases hib : i = bucket_index t key
      · subst hib
        rw [List.getElem_set_self (by simpa using hi)] at hp
        have hpk : p.key ∈ (chainUpdate key v
            (t.buckets.getD (bucket_index t key) [])).map Pair.key :=
          List.mem_map_of_mem Pair.key hp
        rw [map_key_chainUpdate] at hpk
        obtain ⟨q, hq, hqk⟩ := List.mem_map.mp hpk
        rw [hchain] at hq
        have := h.placed (bucket_index t key) hb q hq
        rw [hqk] at this
        simpa using this
      · rw [List.getElem_set_ne (fun he => hib he.symm) (by simpa using hi)] at hp
        simpa using h.placed i hi p hp
  · -- pair_create at the chain head
    simp only [table_insert, if_neg hc]
    refine ⟨h.cap_pos, by simpa using h.len_eq, ?_, ?_, ?_⟩
    · have hsum := sum_map_len_set t.buckets (bucket_index t key)
        ({ key := key, value := v } :: t.buckets.getD (bucket_index t key) []) hb
      have := h.size_eq
      simp only [numEntries, List.length_cons] at *
      omega
    · intro c hcm
      rcases List.mem_or_eq_of_mem_set hcm with hold | rfl
      · exact h.chains_nodup c hold
      · simp only [List.map_cons, List.nodup_cons]
        refine ⟨?_, h.chains_nodup _ hmem⟩
        intro hkm
        exact absurd ((chainHasKey_iff_mem_keys key _).mpr hkm) (by simpa using hc)
    · intro i hi p hp
      simp only [List.length_set] at hi
      by_cases hib : i = bucket_index t key
      · subst hib
        rw [List.getElem_set_self (by simpa using hi)] at hp
        rcases List.mem_cons.mp hp with rfl | hold
        · rfl
        · rw [hchain] at hold
          simpa using h.placed (bucket_index t key) hb p hold
      · rw [List.getElem_set_ne (fun he => hib he.symm) (by simpa using hi)] at hp
        simpa using h.placed i hi p hp

theorem inv_table_remove (t : Table) (key : List Nat) (h : TableInv t) :
    TableInv (table_remove t key).2 := by
  have hw : Wf t := ⟨h.cap_pos, h.len_eq⟩
  have hb : bucket_index t key < t.buckets.length := bucket_index_lt t key hw
  have hchain : t.buckets.getD (bucket_index t key) []
      = t.buckets[bucket_index t key] := getD_eq_getElem _ _ _ hb
  have hmem : t.buckets.getD (bucket_index t key) [] ∈ t.buckets := by
    rw [hchain]; exact List.getElem_mem hb
  rcases hrem : chainRemove key (t.buckets.getD (bucket_index t key) []) with _ | c'
  · simp only [table_remove, hrem]
    exact h
  · have hsub := chainRemove_sublist key _ c' hrem
    have hlen := chainRemove_length key _ c' hrem
    have hge : (t.buckets.getD (bucket_index t key) []).length
        ≤ (t.buckets.map List.length).sum := by
      have := sum_map_len_set t.buckets (bucket_index t key) [] hb
      simp only [List.length_nil] at this
      omega
    simp only [table_remove, hrem]
    refine ⟨h.cap_pos, by simpa using h.len_eq, ?_, ?_, ?_⟩
    · have hsum := sum_map_len_set t.buckets (bucket_index t key) c' hb
      have := h.size_eq
      simp only [numEntries] at *
      omega
    · intro c hcm
      rcases List.mem_or_eq_of_mem_set hcm with hold | rfl
      · exact h.chains_nodup c hold
      · exact (h.chains_nodup _ hmem).sublist (hsub.map Pair.key)
    · intro i hi p hp
      simp only [List.length_set] at hi
      by_cases hib : i = bucket_index t key
      · subst hib
        rw [List.getElem_set_self (by simpa using hi)] at hp
        have hold : p ∈ t.buckets[bucket_index t key] := by
          rw [← hchain]; exact hsub.mem hp
        simpa using h.placed (bucket_index t key) hb p hold
      · rw [List.getElem_set_ne (fun he => hib he.symm) (by simpa using hi)] at hp
        simpa using h.placed i hi p hp

theorem inv_applyOp (t : Table) (op : Op) (h : TableInv t) :
    TableInv (applyOp t op) := by
  cases op with
  | ins k v => exact inv_table_insert t k v h
  | rem k => exact inv_table_remove t k h
  | find k => exact h

theorem inv_runOps (t : Table) (ops : List Op) (h : TableInv t) :
    TableInv (runOps t ops) := by
  induction ops generalizing t with
  | nil => exact h
  | cons op ops ih => exact ih _ (inv_applyOp t op h)

theorem capacity_runOps (t : Table) (ops : List Op) :
    (runOps t ops).capacity = t.capacity := by
  induction ops generalizing t with
  | nil => rfl
  | cons op ops ih => rw [runOps, List.foldl_cons, ← runOps, ih, capacity_applyOp]

theorem allKeys_nodup_of_inv (t : Table) (h : TableInv t) :
    (allKeys t).Nodup := by
  rw [allKeys, List.nodup_flatten]
  constructor
  · intro l hl
    rw [List.mem_map] at hl
    obtain ⟨c, hc, rfl⟩ := hl
    exact h.chains_nodup c hc
  · rw [List.pairwise_iff_getElem]
    intro i j hi hj hij
    simp only [List.length_map] at hi hj
    intro a hai haj
    rw [List.getElem_map] at hai haj
    obtain ⟨p, hp, hpk⟩ := List.mem_map.mp hai
    obtain ⟨q, hq, hqk⟩ := List.mem_map.mp haj
    have h1 := h.placed i hi p hp
    have h2 := h.placed j hj q hq
    rw [hpk] at h1
    rw [hqk] at h2
    omega

/-! ### The claims -/

/-- C2: for every key K and distinct values V1, V2, after
`insert_or_update(K, V1)` followed by `insert_or_update(K, V2)` the table's
size equals its size after the first insert, and `search(K)` returns V2. -/
theorem c2_insert_twice (t : Table) (K : List Nat) (V1 V2 : Value)
    (hw : Wf t) (hne : V1 ≠ V2) :
    (table_insert (table_insert t K V1) K V2).size
      = (table_insert t K V1).size ∧
    table_search (table_insert (table_insert t K V1) K V2) K = some V2 := by
  have hw1 := Wf_table_insert t K V1 hw
  have hk := chainHasKey_insert_self t K V1 hw
  constructor
  · have hk' : chainHasKey K ((table_insert t K V1).buckets.getD
        (bucket_index (table_insert t K V1) K) []) = true := by
      rwa [bucket_index_table_insert]
    exact size_table_insert_update _ _ _ hk'
  · exact table_search_insert_self _ _ _ hw1

/-- Witness for C2 at table `create(1)`, key `"a"`, values 0 and 1. -/
theorem c2_witness :
    Wf (table_create 1) ∧ Value.number 0 ≠ Value.number 1 ∧
    ((table_insert (table_insert (table_create 1) [97] (Value.number 0)) [97]
        (Value.number 1)).size
      = (table_insert (table_create 1) [97] (Value.number 0)).size ∧
    table_search (table_insert (table_insert (table_create 1) [97]
        (Value.number 0)) [97] (Value.number 1)) [97]
      = some (Value.number 1)) :=
  ⟨by decide, by decide,
    c2_insert_twice (table_create 1) [97] (Value.number 0) (Value.number 1)
      (by decide) (by decide)⟩

/-- C4: every table reachable from `create` by `insert_or_update` and
`remove` operations has its capacity unchanged since creation, its `size`
equal to the number of reachable entries across all chains, all stored keys
pairwise distinct (every present key occurs in exactly one entry), and
every entry with key K residing in bucket `hash_from_data(K) mod capacity`. -/
theorem c4_create_invariant (n : Nat) (ops : List Op) :
    (runOps (table_create n) ops).capacity = (table_create n).capacity ∧
    (runOps (table_create n) ops).size = numEntries (runOps (table_create n) ops) ∧
    (allKeys (runOps (table_create n) ops)).Nodup ∧
    ∀ i, (hi : i < (runOps (table_create n) ops).buckets.length) →
      ∀ p ∈ (runOps (table_create n) ops).buckets[i],
        hash_from_data p.key % (runOps (table_create n) ops).capacity = i := by
  have hinv := inv_runOps (table_create n) ops (inv_table_create n)
  exact ⟨capacity_runOps _ _, hinv.size_eq, allKeys_nodup_of_inv _ hinv,
    hinv.placed⟩

/-- C6: after `insert_or_update(K, V)`, `search(K)` returns V, and it still
does after inserting any different key K' with any value. -/
theorem c6_round_trip (t : Table) (K K' : List Nat) (V V' : Value)
    (hw : Wf t) (hne : K' ≠ K) :
    table_search (table_insert t K V) K = some V ∧
    table_search (table_insert (table_insert t K V) K' V') K = some V := by
  have h1 := table_search_insert_self t K V hw
  refine ⟨h1, ?_⟩
  rw [table_search_insert_ne _ _ _ _ (Wf_table_insert t K V hw)
    (fun he => hne he.symm)]
  exact h1

/-- Witness for C6 at table `create(1)`, keys `"a"` and `"b"`. -/
theorem c6_witness :
    Wf (table_create 1) ∧ ([98] : List Nat) ≠ [97] ∧
    (table_search (table_insert (table_create 1) [97] (Value.number 0)) [97]
      = some (Value.number 0) ∧
    table_search (table_insert (table_insert (table_create 1) [97]
        (Value.number 0)) [98] (Value.number 7)) [97]
      = some (Value.number 0)) :=
  ⟨by decide, by decide,
    c6_round_trip (table_create 1) [97] [98] (Value.number 0) (Value.number 7)
      (by decide) (by decide)⟩

/-- C7: `search` and `remove` on a key present in no chain return
not-found (`NULL` resp. `false`) with the table — size and every bucket
chain — unchanged. -/
theorem c7_absent_key (t : Table) (K : List Nat)
    (habs : ∀ c ∈ t.buckets, chainHasKey K c = false) :
    table_search t K = none ∧ table_remove t K = (false, t) := by
  have hchain : chainHasKey K (t.buckets.getD (bucket_index t K) []) = false := by
    rcases Nat.lt_or_ge (bucket_index t K) t.buckets.length with hlt | hge
    · refine habs _ ?_
      rw [getD_eq_getElem _ _ _ hlt]
      exact List.getElem_mem hlt
    · rw [List.getD_eq_getElem?_getD, List.getElem?_eq_none (by omega)]
      rfl
  obtain ⟨h1, h2⟩ := chainHasKey_eq_false K _ hchain
  refine ⟨h1, ?_⟩
  simp only [table_remove, h2]

/-- Witness for C7 at the empty table `create(1)` and key `"a"`. -/
theorem c7_witness :
    (∀ c ∈ (table_create 1).buckets, chainHasKey [97] c = false) ∧
    (table_search (table_create 1) [97] = none ∧
     table_remove (table_create 1) [97] = (false, table_create 1)) :=
  ⟨by decide, c7_absent_key (table_create 1) [97] (by decide)⟩

/-- C8: `create(0)` yields a table with the positive default capacity, and
its observable behavior — the value returned by every operation and the
size after it — under any operation sequence is identical to a table
created with that default capacity explicitly. -/
theorem c8_default_capacity (ops : List Op) :
    (table_create 0).capacity = DEFAULT_CAPACITY ∧ 0 < DEFAULT_CAPACITY ∧
    table_create 0 = table_create DEFAULT_CAPACITY ∧
    runObs (table_create 0) ops = runObs (table_create DEFAULT_CAPACITY) ops := by
  have he : table_create 0 = table_create DEFAULT_CAPACITY := rfl
  exact ⟨rfl, by decide, he, by rw [he]⟩

/-- C9: `check_file`'s duplicate count and its effect on the table are the
same under all four settings of the `-c`/`-q` options; the options only
decide whether the duplicate-report line is printed. -/
theorem c9_options_noninterference (hf : List Nat → Option (List Nat))
    (path : List Nat) (t : Table) (o1 o2 : Options) :
    (check_file hf o1 path t).1 = (check_file hf o2 path t).1 ∧
    (check_file hf o1 path t).2.1 = (check_file hf o2 path t).2.1 ∧
    (check_file hf o1 path t).2.2
      = (if o1.count || o1.quiet then [] else dup_report hf path t) := by
  cases hh : hf path with
  | none => simp [check_file, dup_report, hh]
  | some hex =>
    cases hs : table_search t hex with
    | none => simp [check_file, dup_report, hh, hs]
    | some v =>
      obtain ⟨c1, q1⟩ := o1
      obtain ⟨c2, q2⟩ := o2
      cases c1 <;> cases q1 <;> cases c2 <;> cases q2 <;>
        simp [check_file, dup_report, hh, hs]

/-- The one-entry table used to witness C10. -/
def c10T : Table := table_insert (table_create 1) [97] (Value.number 0)

/-- C10: updating a key already present replaces that entry's value (and
tag) in place: the entry keeps its position in its bucket chain (it is not
moved to the head), every other bucket is untouched, and capacity and size
are unchanged. -/
theorem c10_update_in_place (t : Table) (K : List Nat) (V : Value)
    (hw : Wf t)
    (hmem : chainHasKey K (t.buckets.getD (bucket_index t K) []) = true) :
    (table_insert t K V).size = t.size ∧
    (table_insert t K V).capacity = t.capacity ∧
    (∀ j, j ≠ bucket_index t K →
      (table_insert t K V).buckets.getD j [] = t.buckets.getD j []) ∧
    ((table_insert t K V).buckets.getD (bucket_index t K) []).map Pair.key
      = (t.buckets.getD (bucket_index t K) []).map Pair.key ∧
    ∃ c1 p c2, t.buckets.getD (bucket_index t K) [] = c1 ++ p :: c2 ∧
      p.key = K ∧ chainHasKey K c1 = false ∧
      (table_insert t K V).buckets.getD (bucket_index t K) []
        = c1 ++ { key := K, value := V } :: c2 := by
  have hb := bucket_index_lt t K hw
  have hset : (table_insert t K V).buckets
      = t.buckets.set (bucket_index t K)
        (chainUpdate K V (t.buckets.getD (bucket_index t K) [])) := by
    simp only [table_insert, if_pos hmem]
  refine ⟨size_table_insert_update t K V hmem, capacity_table_insert t K V,
    ?_, ?_, ?_⟩
  · intro j hj
    rw [hset, getD_set_ne _ _ _ _ _ (fun he => hj he.symm)]
  · rw [hset, getD_set_self _ _ _ _ hb, map_key_chainUpdate]
  · obtain ⟨c1, p, c2, hc, hp, hc1, hu⟩ := chainUpdate_split K V _ hmem
    exact ⟨c1, p, c2, hc, hp, hc1,
      by rw [hset, getD_set_self _ _ _ _ hb, hu]⟩

/-- Witness for C10 at a one-entry table, updating key `"a"` to value 5. -/
theorem c10_witness :
    Wf c10T ∧
    chainHasKey [97] (c10T.buckets.getD (bucket_index c10T [97]) []) = true ∧
    ((table_insert c10T [97] (Value.number 5)).size = c10T.size ∧
    (table_insert c10T [97] (Value.number 5)).capacity = c10T.capacity ∧
    (∀ j, j ≠ bucket_index c10T [97] →
      (table_insert c10T [97] (Value.number 5)).buckets.getD j []
        = c10T.buckets.getD j []) ∧
    ((table_insert c10T [97] (Value.number 5)).buckets.getD
        (bucket_index c10T [97]) []).map Pair.key
      = (c10T.buckets.getD (bucket_index c10T [97]) []).map Pair.key ∧
    ∃ c1 p c2, c10T.buckets.getD (bucket_index c10T [97]) [] = c1 ++ p :: c2 ∧
      p.key = [97] ∧ chainHasKey [97] c1 = false ∧
      (table_insert c10T [97] (Value.number 5)).buckets.getD
          (bucket_index c10T [97]) []
        = c1 ++ { key := [97], value := Value.number 5 } :: c2) :=
  ⟨by decide, by decide,
    c10_update_in_place c10T [97] (Value.number 5) (by decide) (by decide)⟩

/-- C1: the code composes the child path from `realpath(root)` instead of
the parent path whenever the *bare* entry name happens to be a directory
relative to the process working directory.  Concrete run: scanning the
relative root `r` (absolute path `/q/r`) that holds the plain file `e`
while the working directory also holds a directory named `e`, the path
stored for the file is `/q/r/e`, not the parent-joined `r/e` required by
the claim. -/
theorem c1_path_composition_defect :
    composePath c1FS c1Root c1Name = c1ChildByRealpath ∧
    c1ChildByRealpath ≠ c1ChildByJoin ∧
    check_directory c1FS ⟨false, false⟩ 2 c1Root (table_create 1)
      = (0, table_insert (table_create 1) c1Digest
          (Value.string c1ChildByRealpath), []) ∧
    table_search (check_directory c1FS ⟨false, false⟩ 2 c1Root
        (table_create 1)).2.1 c1Digest
      = some (Value.string c1ChildByRealpath) := by
  refine ⟨by decide, by decide, by decide, by decide⟩

/-- Exchange lemma: flattening bucket-by-bucket renderings equals
rendering the flattened entry list. -/
theorem flatten_map_flatten {α β : Type} (f : α → List β) (L : List (List α)) :
    (L.map (fun c => (c.map f).flatten)).flatten = (L.flatten.map f).flatten := by
  induction L with
  | nil => rfl
  | cons c L ih =>
    simp [List.flatten_cons, List.map_append, List.flatten_append, ih]

/-- `pair_format` spelled through `value_render`. -/
theorem pair_format_eq (p : Pair) :
    pair_format p = p.key ++ [9] ++ value_render p.value ++ [10] := by
  cases hv : p.value <;> simp [pair_format, value_render, hv]

/-- The table used to refute C3's ordering clause: key `"a"` inserted,
then key `"b"` inserted into the same (single) bucket, then key `"a"`
updated, making `"a"` the most-recently-inserted-or-updated key. -/
def c3CounterT : Table :=
  table_insert (table_insert (table_insert (table_create 1) [97]
    (Value.number 0)) [98] (Value.number 0)) [97] (Value.number 1)

/-- C3 counterexample: in `c3CounterT` the most-recently-inserted-or-updated
key for bucket 0 is `"a"` (= [97], just updated), yet `format` emits the
line for `"b"` (= [98]) first — updates do not move an entry to the chain
head, so the claimed ordering fails. -/
theorem c3_counterexample_format_order :
    table_format c3CounterT
      = pair_format { key := [98], value := Value.number 0 }
        ++ pair_format { key := [97], value := Value.number 1 } ∧
    ([98] : List Nat) ≠ [97] := by
  refine ⟨by decide, by decide⟩

/-- C3 (amended): `format` writes, buckets in index order and chains head
first, exactly one `key TAB value NEWLINE` line per stored entry (`Text`
as-is, `Number` in decimal); within a bucket the head is the most recently
*inserted* key — a fresh key is linked at the head, while updating a
present key leaves the chain's key order unchanged. -/
theorem c3_format_order (t : Table) (K : List Nat) (V : Value) (hw : Wf t) :
    table_format t
      = (t.buckets.flatten.map
          (fun p => p.key ++ [9] ++ value_render p.value ++ [10])).flatten ∧
    (t.buckets.flatten.map pair_format).length = numEntries t ∧
    ((table_insert t K V).buckets.getD (bucket_index t K) []).map Pair.key
      = (if chainHasKey K (t.buckets.getD (bucket_index t K) []) = true
         then (t.buckets.getD (bucket_index t K) []).map Pair.key
         else K :: (t.buckets.getD (bucket_index t K) []).map Pair.key) := by
  have hb := bucket_index_lt t K hw
  refine ⟨?_, ?_, ?_⟩
  · rw [table_format, flatten_map_flatten]
    congr 1
    exact List.map_congr_left (fun p _ => pair_format_eq p)
  · rw [List.length_map, List.length_flatten, numEntries]
  · by_cases hc : chainHasKey K (t.buckets.getD (bucket_index t K) []) = true
    · rw [if_pos hc]
      simp only [table_insert, if_pos hc]
      rw [getD_set_self _ _ _ _ hb, map_key_chainUpdate]
    · rw [if_neg hc]
      simp only [table_insert, if_neg hc]
      rw [getD_set_self _ _ _ _ hb]
      rfl

/-- Witness for C3 (amended) at a two-bucket table holding a `Number` and
a `Text` entry, inserting the fresh key `"c"`. -/
theorem c3_witness :
    Wf (table_insert (table_insert (table_create 2) [97] (Value.number (-3)))
      [98] (Value.string [104])) ∧
    (table_format (table_insert (table_insert (table_create 2) [97]
        (Value.number (-3))) [98] (Value.string [104]))
      = ((table_insert (table_insert (table_create 2) [97]
          (Value.number (-3))) [98] (Value.string [104])).buckets.flatten.map
            (fun p => p.key ++ [9] ++ value_render p.value ++ [10])).flatten ∧
    ((table_insert (table_insert (table_create 2) [97] (Value.number (-3)))
        [98] (Value.string [104])).buckets.flatten.map pair_format).length
      = numEntries (table_insert (table_insert (table_create 2) [97]
          (Value.number (-3))) [98] (Value.string [104])) ∧
    ((table_insert (table_insert (table_insert (table_create 2) [97]
        (Value.number (-3))) [98] (Value.string [104])) [99]
          (Value.number 4)).buckets.getD
        (bucket_index (table_insert (table_insert (table_create 2) [97]
          (Value.number (-3))) [98] (Value.string [104])) [99]) []).map Pair.key
      = (if chainHasKey [99] ((table_insert (table_insert (table_create 2) [97]
            (Value.number (-3))) [98] (Value.string [104])).buckets.getD
            (bucket_index (table_insert (table_insert (table_create 2) [97]
              (Value.number (-3))) [98] (Value.string [104])) [99]) []) = true
         then ((table_insert (table_insert (table_create 2) [97]
            (Value.number (-3))) [98] (Value.string [104])).buckets.getD
            (bucket_index (table_insert (table_insert (table_create 2) [97]
              (Value.number (-3))) [98] (Value.string [104])) [99]) []).map Pair.key
         else [99] :: ((table_insert (table_insert (table_create 2) [97]
            (Value.number (-3))) [98] (Value.string [104])).buckets.getD
            (bucket_index (table_insert (table_insert (table_create 2) [97]
              (Value.number (-3))) [98] (Value.string [104])) [99]) []).map Pair.key)) :=
  ⟨by decide,
    c3_format_order (table_insert (table_insert (table_create 2) [97]
      (Value.number (-3))) [98] (Value.string [104])) [99] (Value.number 4)
      (by decide)⟩

/-- C5: when the digest computation fails (unopenable file), `check_file`
contributes 0, prints nothing and leaves the table unchanged — the spec's
`classify_file` outcome is `Unreadable` — and the directory-entry loop
continues with the remaining (sibling) entries exactly as if the entry
were not there. -/
theorem c5_unreadable_skipped (fs : FS) (o : Options)
    (recurse : List Nat → Table → Nat × Table × List (List Nat))
    (root name : List Nat) (rest : List (List Nat)) (t : Table)
    (hname : ¬(name = [46] ∨ name = [46, 46]))
    (hread : fs.hashFile (composePath fs root name) = none)
    (hdir : fs.isDir (composePath fs root name) = false) :
    check_file fs.hashFile o (composePath fs root name) t = (0, t, []) ∧
    classify_file fs.hashFile (composePath fs root name) t
      = (Classification.Unreadable, t) ∧
    check_entries fs o recurse root (name :: rest) t
      = check_entries fs o recurse root rest t := by
  have h1 : check_file fs.hashFile o (composePath fs root name) t
      = (0, t, []) := by
    simp [check_file, hread]
  refine ⟨h1, by simp [classify_file, hread], ?_⟩
  simp only [check_entries, if_neg hname, hdir]
  simp [h1]

/-- The trivial filesystem used to witness C5: nothing is a directory and
no file can be opened. -/
def c5FS : FS where
  readdir := fun _ => none
  isDir := fun _ => false
  realpath := fun p => p
  hashFile := fun _ => none

/-- Witness for C5: entry `"a"` under root `"r"` in `c5FS`. -/
theorem c5_witness :
    ¬(([97] : List Nat) = [46] ∨ ([97] : List Nat) = [46, 46]) ∧
    c5FS.hashFile (composePath c5FS [114] [97]) = none ∧
    c5FS.isDir (composePath c5FS [114] [97]) = false ∧
    (check_file c5FS.hashFile ⟨false, false⟩ (composePath c5FS [114] [97])
        (table_create 1) = (0, table_create 1, []) ∧
    classify_file c5FS.hashFile (composePath c5FS [114] [97]) (table_create 1)
      = (Classification.Unreadable, table_create 1) ∧
    check_entries c5FS ⟨false, false⟩ (fun _ t => (0, t, [])) [114] [[97]]
        (table_create 1)
      = check_entries c5FS ⟨false, false⟩ (fun _ t => (0, t, [])) [114] []
        (table_create 1)) :=
  ⟨by decide, rfl, rfl,
    c5_unreadable_skipped c5FS ⟨false, false⟩ (fun _ t => (0, t, [])) [114]
      [97] [] (table_create 1) (by decide) rfl rfl⟩
